import Mathlib

/-!
# Verification of `pkg/forwarder/clone.go`

A shallow embedding of the media relay pipeline (`cloneMedia`, `writeAt.WriteAt`,
`uploaded.Chunk`, `bestThreads`, `min`) together with the properties proved about it.

Conventions of the embedding

* Go `int` / `int64` values are `Int`.  Where the source performs arithmetic on
  `int64` (`Size * 2`, `state.Uploaded - prev`) the result is reduced with
  `wrapInt64`, the two's-complement wrap-around of Go.
* A Go `error` is `Option GoError`; `none` is `nil`.
* The calls that leave the file (`os.CreateTemp`, the downloader, `Seek`, the
  uploader, `Close`, `os.Remove`, the progress sink) are recorded in a trace of
  `Event`s; what each of them returns is read from a `World` value, so that every
  combination of outcomes is a value of `World`.
-/

namespace Forwarder

/-! ## Machine integers -/

/-- Two's-complement reduction of an integer to the range of Go's `int64`. -/
def wrapInt64 (x : Int) : Int := (x + 9223372036854775808) % 18446744073709551616 - 9223372036854775808

/-- Membership in the range of `int64`. -/
def inInt64 (x : Int) : Prop := -9223372036854775808 ≤ x ∧ x < 9223372036854775808

instance (x : Int) : Decidable (inInt64 x) := by
  unfold inInt64; infer_instance

/-- Go constant expression `a << k`. -/
def shl (a : Int) (k : Nat) : Int := a * 2 ^ k

/-! ## `bestThreads` and `min` -/

/-- Element type of `threadsLevels`. -/
structure Level where
  threads : Int
  size : Int
deriving DecidableEq, Repr

/-- The package-level table `threadsLevels`. -/
def threadsLevels : List Level :=
  [⟨1, shl 1 20⟩, ⟨2, shl 5 20⟩, ⟨4, shl 20 20⟩, ⟨8, shl 50 20⟩]

/-- The function `min(a, b int) int`. -/
def min (a b : Int) : Int := if a < b then a else b

/-- The `for _, t := range` loop of `bestThreads`, over the remaining levels. -/
def bestThreadsLoop : List Level → Int → Int → Int
  | [], _, max => max
  | t :: ts, size, max =>
    if size < t.size then Forwarder.min t.threads max else bestThreadsLoop ts size max

/-- The function `bestThreads(size int64, max int) int`. -/
def bestThreads (size max : Int) : Int := bestThreadsLoop threadsLevels size max

/-! ## Errors -/

/-- A non-nil error that is not a `multierr` aggregate: either the error an
external call returned, or `errors.Wrap(cause, msg)`. -/
inductive Err where
  | ext (msg : String)
  | wrap (cause : Err) (msg : String)
deriving DecidableEq, Repr

/-- A non-nil value of Go's `error`: a single error or the flat aggregate that
`multierr` builds.  Go's `error` itself is `Option GoError`, `none` being `nil`. -/
inductive GoError where
  | single (e : Err)
  | multi (es : List Err)
deriving DecidableEq, Repr

/-- The call `errors.Wrap(err, msg)` on a non-nil `err`. -/
def Wrap (err : Err) (msg : String) : GoError := .single (.wrap err msg)

/-- The library function `multierr.Errors`: the errors an error value is made of. -/
def multierrErrors : Option GoError → List Err
  | none => []
  | some (.single e) => [e]
  | some (.multi es) => es

/-- The library function `multierr.Append`: `nil` is neutral, two non-nil errors
are flattened into one aggregate that keeps both, left first. -/
def multierrAppend (left right : Option GoError) : Option GoError :=
  match left, right with
  | none, r => r
  | l, none => l
  | some l, some r => some (.multi (multierrErrors (some l) ++ multierrErrors (some r)))

/-- The library function `multierr.AppendInto(&into, err)`, as the new value of
`into` (the boolean it returns is discarded by the caller). -/
def multierrAppendInto (into : Option GoError) (err : Option Err) : Option GoError :=
  match err with
  | none => into
  | some e => multierrAppend into (some (.single e))

/-! ## Data model -/

/-- The fields of `tmedia.Media` that `cloneMedia` reads. -/
structure Media where
  Size : Int
  Name : String
  DC : Int
deriving DecidableEq, Repr

/-- The struct `cloneOptions`.  The `progress` sink is not a field here: every call
`opts.progress.add(n)` is recorded as `Event.progressAdd n` in the trace. -/
structure cloneOptions where
  elem : Nat
  media : Media
deriving DecidableEq, Repr

/-- The fields of `f.opts` that `cloneMedia` reads. -/
structure Options where
  Threads : Int
  PartSize : Int
deriving DecidableEq, Repr

/-- A non-nil `tg.InputFileClass`. -/
inductive InputFileClass where
  | inputFile (ID Parts : Int) (Name MD5Checksum : String)
  | inputFileBig (ID Parts : Int) (Name : String)
deriving DecidableEq, Repr

/-- The calls that leave `clone.go`, in the order they are made. -/
inductive Event where
  | progressAdd (n : Int)
  | createTemp
  | download (dc partSize threads : Int)
  | fileWriteAt (len : Nat) (off : Int)
  | seek (offset whence : Int)
  | upload (name : String) (size partSize threads : Int)
  | close
  | remove
deriving DecidableEq, Repr

/-- The deltas passed to the progress sink, in call order. -/
def sinkAdds : List Event → List Int
  | [] => []
  | .progressAdd n :: tr => n :: sinkAdds tr
  | _ :: tr => sinkAdds tr

def Event.isProgressAdd : Event → Bool
  | .progressAdd _ => true
  | _ => false

def Event.isDownload : Event → Bool
  | .download _ _ _ => true
  | _ => false

def Event.isFileWriteAt : Event → Bool
  | .fileWriteAt _ _ => true
  | _ => false

def Event.isSeek : Event → Bool
  | .seek _ _ => true
  | _ => false

def Event.isUpload : Event → Bool
  | .upload _ _ _ _ => true
  | _ => false

/-- What the outside world answers during one invocation of `cloneMedia`. -/
structure World where
  /-- error of `os.CreateTemp` -/
  createTemp : Option Err
  /-- the staging file's own `WriteAt(p, off)` -/
  fileWriteAt : List UInt8 → Int → Int × Option Err
  /-- the `WriteAt(p, off)` calls the downloader makes on the writer it is given -/
  downloadWrites : List (List UInt8 × Int)
  /-- error of `Parallel` -/
  downloadErr : Option Err
  /-- error of `temp.Seek` -/
  seek : Option Err
  /-- the values of `state.Uploaded` the uploader passes to `Chunk`, in order -/
  uploadStates : List Int
  /-- result of `Upload`: an error, or a non-nil file handle -/
  upload : Except Err InputFileClass
  /-- error of `temp.Close` -/
  close : Option Err
  /-- error of `os.Remove` -/
  remove : Option Err

/-! ## `writeAt.WriteAt` -/

/-- The struct `writeAt`; `f` is the wrapped `io.WriterAt`. -/
structure writeAt where
  f : List UInt8 → Int → Int × Option Err

/-- The method `writeAt.WriteAt(p, off)`: returns `(n, err)` and the extended trace.
The conversion `int64(n)` of an `int` is the identity. -/
def writeAt.WriteAt (w : writeAt) (p : List UInt8) (off : Int) (tr : List Event) :
    (Int × Option Err) × List Event :=
  let tr := tr ++ [Event.fileWriteAt p.length off]
  match w.f p off with
  | (_, some err) => ((0, some err), tr)
  | (n, none) => ((n, none), tr ++ [Event.progressAdd n])

/-- The downloader calling `WriteAt` once per entry of `writes`, one call after another. -/
def writeAll (w : writeAt) : List (List UInt8 × Int) → List Event →
    List (Int × Option Err) × List Event
  | [], tr => ([], tr)
  | (p, off) :: rest, tr =>
    let r := w.WriteAt p off tr
    let rs := writeAll w rest r.2
    (r.1 :: rs.1, rs.2)

/-! ## `uploaded.Chunk` -/

/-- The struct `uploaded`; `prev` is the content of the `atomic.Int64` cell. -/
structure uploaded where
  prev : Int
deriving DecidableEq, Repr

/-- The method `uploaded.Chunk(ctx, state)`: `u.prev.Swap(state.Uploaded)` stores the
new value and yields the old one, the `int64` difference goes to the sink.  Returns
the error, the cell afterwards and the extended trace. -/
def uploaded.Chunk (u : uploaded) (stateUploaded : Int) (tr : List Event) :
    Option GoError × uploaded × List Event :=
  let old := u.prev
  (none, ⟨stateUploaded⟩, tr ++ [Event.progressAdd (wrapInt64 (stateUploaded - old))])

/-- The uploader delivering its progress callbacks one after another.  Returns the
errors of the calls, the cell afterwards and the extended trace. -/
def chunkAll : uploaded → List Int → List Event → List (Option GoError) × uploaded × List Event
  | u, [], tr => ([], u, tr)
  | u, c :: cs, tr =>
    let r := u.Chunk c tr
    let rs := chunkAll r.2.1 cs r.2.2
    (r.1 :: rs.1, rs.2.1, rs.2.2)

/-! ## `cloneMedia` -/

/-- The results of `cloneMedia` together with the trace of calls made. -/
structure Result where
  file : Option InputFileClass
  rerr : Option GoError
  trace : List Event
deriving DecidableEq, Repr

/-- The body of `cloneMedia` from `threads := bestThreads(...)` to the `return`
statement reached; `tr` is the trace so far. -/
def cloneStages (o : Options) (opts : cloneOptions) (w : World) (tr : List Event) : Result :=
  let threads := bestThreads opts.media.Size o.Threads
  let tr := tr ++ [Event.download opts.media.DC o.PartSize threads]
  let tr := (writeAll ⟨w.fileWriteAt⟩ w.downloadWrites tr).2
  match w.downloadErr with
  | some err => ⟨none, some (Wrap err "download"), tr⟩
  | none =>
    let tr := tr ++ [Event.seek 0 0]
    match w.seek with
    | some err => ⟨none, some (Wrap err "seek"), tr⟩
    | none =>
      let tr := tr ++ [Event.upload opts.media.Name opts.media.Size o.PartSize threads]
      let tr := (chunkAll ⟨0⟩ w.uploadStates tr).2.2
      match w.upload with
      | .error err => ⟨none, some (Wrap err "upload"), tr⟩
      | .ok file => ⟨some file, none, tr⟩

/-- The deferred function of `cloneMedia`, run on the results set by the `return`
statement: only the named result `rerr` is reassigned. -/
def deferred (w : World) (r : Result) : Result :=
  let rerr := multierrAppendInto r.rerr w.close
  let tr := r.trace ++ [Event.close]
  let rerr := multierrAppendInto rerr w.remove
  let tr := tr ++ [Event.remove]
  ⟨r.file, rerr, tr⟩

/-- The method `(*Forwarder).cloneMedia(ctx, opts, dryRun)`. -/
def cloneMedia (o : Options) (opts : cloneOptions) (dryRun : Bool) (w : World) : Result :=
  if dryRun then
    ⟨some (.inputFile 0 0 "" ""), none, [Event.progressAdd (wrapInt64 (opts.media.Size * 2))]⟩
  else
    match w.createTemp with
    | some err => ⟨none, some (Wrap err "create temp file"), [Event.createTemp]⟩
    | none => deferred w (cloneStages o opts w [Event.createTemp])

/-! ## Vocabulary of the statements -/

/-- The error of the stage that failed, as the `return` statement builds it, or `nil`
when download, seek and upload all succeeded. -/
def stageError (w : World) : Option GoError :=
  match w.downloadErr with
  | some e => some (Wrap e "download")
  | none =>
    match w.seek with
    | some e => some (Wrap e "seek")
    | none =>
      match w.upload with
      | .error e => some (Wrap e "upload")
      | .ok _ => none

/-- A run in which every stage succeeds and only `temp.Close()` fails. -/
def worldCloseFails : World where
  createTemp := none
  fileWriteAt := fun p _ => (p.length, none)
  downloadWrites := [([1, 2, 3], 0)]
  downloadErr := none
  seek := none
  uploadStates := [3]
  upload := .ok (.inputFile 7 1 "a.bin" "")
  close := some (.ext "close: input/output error")
  remove := none

/-- A run in which the download fails. -/
def worldDownloadFails : World :=
  { worldCloseFails with downloadErr := some (.ext "rpc: timeout") }

/-- The differences `c1 - p, c2 - c1, ..., cn - c(n-1)` of a sequence of cumulative
values against the value before each, `p` being the value before the first. -/
def deltasFrom : Int → List Int → List Int
  | _, [] => []
  | p, c :: cs => (c - p) :: deltasFrom c cs

/-- The chunks `(off, n)`, in this order, cover `[start, stop)` back to back. -/
def contiguous : Int → List (Int × Int) → Int → Prop
  | start, [], stop => start = stop
  | start, (off, n) :: rest, stop => off = start ∧ contiguous (start + n) rest stop

/-- The written chunks `(off, n)` exactly tile a file of `size` bytes: taken in some
order they cover `[0, size)` back to back. -/
def tiles (chunks : List (Int × Int)) (size : Int) : Prop :=
  ∃ ordered, List.Perm ordered chunks ∧ contiguous 0 ordered size

/-! ## Lemmas on `bestThreads` -/

theorem min_eq_inf (a b : Int) : Forwarder.min a b = Min.min a b := by
  unfold Forwarder.min
  split <;> omega

theorem bestThreads_unfold (size max : Int) :
    bestThreads size max =
      if size < 1048576 then Forwarder.min 1 max
      else if size < 5242880 then Forwarder.min 2 max
      else if size < 20971520 then Forwarder.min 4 max
      else if size < 52428800 then Forwarder.min 8 max
      else max := by
  simp [bestThreads, threadsLevels, bestThreadsLoop, shl]

/-! ## The thread-level selector -/

/-- C1: `bestThreads` equals the tier table for every size and every max: `min(1, max)`
below 1 MiB, `min(2, max)` from 1 MiB to below 5 MiB, `min(4, max)` from 5 MiB to below
20 MiB, `min(8, max)` from 20 MiB to below 50 MiB and `max` from 50 MiB on; in particular
`bestThreads(0, 4) = 1`, `bestThreads(1<<20, 4) = 2`, `bestThreads(5<<20, 4) = 4` and
`bestThreads(100<<20, 4) = 4`. -/
theorem bestThreads_tier_table :
    (∀ size max : Int,
      (size < shl 1 20 → bestThreads size max = Min.min 1 max) ∧
      (shl 1 20 ≤ size → size < shl 5 20 → bestThreads size max = Min.min 2 max) ∧
      (shl 5 20 ≤ size → size < shl 20 20 → bestThreads size max = Min.min 4 max) ∧
      (shl 20 20 ≤ size → size < shl 50 20 → bestThreads size max = Min.min 8 max) ∧
      (shl 50 20 ≤ size → bestThreads size max = max)) ∧
    bestThreads 0 4 = 1 ∧ bestThreads (shl 1 20) 4 = 2 ∧
    bestThreads (shl 5 20) 4 = 4 ∧ bestThreads (shl 100 20) 4 = 4 := by
  refine ⟨fun size max => ?_, ?_, ?_, ?_, ?_⟩
  · simp only [bestThreads_unfold, min_eq_inf, shl]
    norm_num
    refine ⟨?_, ?_, ?_, ?_, ?_⟩
    · intro h; simp [h]
    · intro h1 h2
      rw [if_neg (by omega), if_pos h2]
    · intro h1 h2
      rw [if_neg (by omega), if_neg (by omega), if_pos h2]
    · intro h1 h2
      rw [if_neg (by omega), if_neg (by omega), if_neg (by omega), if_pos h2]
    · intro h1
      rw [if_neg (by omega), if_neg (by omega), if_neg (by omega), if_neg (by omega)]
  all_goals simp [bestThreads_unfold, Forwarder.min, shl]

theorem bestThreads_tier_table_witness :
    (3000000 : Int) < shl 5 20 ∧ bestThreads 3000000 7 = Min.min 2 7 :=
  ⟨by decide, (bestThreads_tier_table.1 3000000 7).2.1 (by decide) (by decide)⟩

/-- C2: for all `size ≥ 0` and `max ≥ 1`, `bestThreads(size, max) ≤ max`, and for fixed
`max` the result is non-decreasing in the size: `0 ≤ s1 ≤ s2` gives
`bestThreads(s1, max) ≤ bestThreads(s2, max)`. -/
theorem bestThreads_le_max_and_mono (max : Int) (hmax : 1 ≤ max) :
    (∀ size : Int, 0 ≤ size → bestThreads size max ≤ max) ∧
    (∀ s1 s2 : Int, 0 ≤ s1 → s1 ≤ s2 → bestThreads s1 max ≤ bestThreads s2 max) := by
  constructor
  · intro size _
    rw [bestThreads_unfold]
    simp only [min_eq_inf]
    split_ifs <;> omega
  · intro s1 s2 _ h12
    rw [bestThreads_unfold, bestThreads_unfold]
    simp only [min_eq_inf]
    split_ifs <;> omega

theorem bestThreads_le_max_and_mono_witness :
    bestThreads 6000000 3 ≤ 3 ∧ bestThreads 100 3 ≤ bestThreads 6000000 3 :=
  ⟨(bestThreads_le_max_and_mono 3 (by decide)).1 6000000 (by decide),
   (bestThreads_le_max_and_mono 3 (by decide)).2 100 6000000 (by decide) (by decide)⟩

/-- C9, as stated, fails: for 100 MiB and a maximum of 16 the result is not 8. -/
theorem bestThreads_100MiB_ne_8 : bestThreads (shl 100 20) 16 ≠ 8 := by
  simp [bestThreads_unfold, shl]

/-- C9, amended: for an object of 100 MiB and a configured maximum of 16 threads,
`bestThreads` returns the maximum, 16 (sizes from 50 MiB on get `max`, not 8). -/
theorem bestThreads_100MiB_16 : bestThreads (shl 100 20) 16 = 16 := by
  simp [bestThreads_unfold, shl]

/-- C10, as stated, fails: with `max = -1` the result for size 0 is -1, not 0. -/
theorem bestThreads_neg_max_ne_zero : bestThreads 0 (-1) ≠ 0 := by
  simp [bestThreads_unfold, Forwarder.min]

/-- C10, amended: `bestThreads` is a total function without error cases, and for every
size and every `max ≤ 0` it returns `max` itself, which is 0 only when `max = 0`. -/
theorem bestThreads_nonpos_max (size max : Int) (hmax : max ≤ 0) :
    bestThreads size max = max ∧ (bestThreads size max = 0 ↔ max = 0) := by
  have h : bestThreads size max = max := by
    rw [bestThreads_unfold]
    simp only [min_eq_inf]
    split_ifs <;> omega
  exact ⟨h, by rw [h]⟩

theorem bestThreads_nonpos_max_witness :
    bestThreads 7340032 (-3) = -3 ∧ (bestThreads 7340032 (-3) = 0 ↔ (-3 : Int) = 0) :=
  bestThreads_nonpos_max 7340032 (-3) (by decide)

/-! ## Lemmas on the traces -/

theorem writeAll_trace (wa : writeAt) (ws : List (List UInt8 × Int)) (tr : List Event) :
    (writeAll wa ws tr).2 = tr ++ (writeAll wa ws []).2 := by
  induction ws generalizing tr with
  | nil => simp [writeAll]
  | cons x rest ih =>
    obtain ⟨p, off⟩ := x
    simp only [writeAll]
    rw [ih (wa.WriteAt p off tr).2, ih (wa.WriteAt p off []).2]
    rcases hf : wa.f p off with ⟨n, _ | e⟩ <;> simp [writeAt.WriteAt, hf]

theorem writeAll_events (wa : writeAt) (ws : List (List UInt8 × Int)) :
    ∀ ev ∈ (writeAll wa ws []).2, ev.isFileWriteAt = true ∨ ev.isProgressAdd = true := by
  induction ws with
  | nil => simp [writeAll]
  | cons x rest ih =>
    obtain ⟨p, off⟩ := x
    simp only [writeAll]
    rw [writeAll_trace]
    intro ev hev
    rcases List.mem_append.1 hev with h | h
    · rcases hf : wa.f p off with ⟨n, _ | e⟩
      · simp [writeAt.WriteAt, hf] at h
        rcases h with h | h <;> simp [h, Event.isFileWriteAt, Event.isProgressAdd]
      · simp [writeAt.WriteAt, hf] at h
        simp [h, Event.isFileWriteAt]
    · exact ih ev h

theorem chunkAll_trace (u : uploaded) (cs : List Int) (tr : List Event) :
    (chunkAll u cs tr).2.2 = tr ++ (chunkAll u cs []).2.2 := by
  induction cs generalizing u tr with
  | nil => simp [chunkAll]
  | cons c rest ih =>
    simp only [chunkAll, uploaded.Chunk]
    rw [ih, ih ⟨c⟩ ([] ++ _)]
    simp

theorem chunkAll_events (u : uploaded) (cs : List Int) :
    ∀ ev ∈ (chunkAll u cs []).2.2, ev.isProgressAdd = true := by
  induction cs generalizing u with
  | nil => simp [chunkAll]
  | cons c rest ih =>
    simp only [chunkAll, uploaded.Chunk]
    rw [chunkAll_trace]
    intro ev hev
    rcases List.mem_append.1 hev with h | h
    · simp at h
      simp [h, Event.isProgressAdd]
    · exact ih _ ev h

theorem writeAll_other (wa : writeAt) (ws : List (List UInt8 × Int)) :
    ∀ ev ∈ (writeAll wa ws []).2, ev.isSeek = false ∧ ev.isUpload = false ∧
      ev.isDownload = false ∧ ev ≠ Event.close ∧ ev ≠ Event.remove ∧
      ev ≠ Event.createTemp := by
  intro ev hev
  have h := writeAll_events wa ws ev hev
  cases ev <;> simp_all [Event.isSeek, Event.isUpload, Event.isDownload,
    Event.isFileWriteAt, Event.isProgressAdd]

theorem chunkAll_other (u : uploaded) (cs : List Int) :
    ∀ ev ∈ (chunkAll u cs []).2.2, ev.isSeek = false ∧ ev.isUpload = false ∧
      ev.isDownload = false ∧ ev ≠ Event.close ∧ ev ≠ Event.remove ∧
      ev ≠ Event.createTemp := by
  intro ev hev
  have h := chunkAll_events u cs ev hev
  cases ev <;> simp_all [Event.isSeek, Event.isUpload, Event.isDownload,
    Event.isProgressAdd]

theorem cloneStages_rerr (o : Options) (opts : cloneOptions) (w : World) (tr : List Event) :
    (cloneStages o opts w tr).rerr = stageError w := by
  unfold cloneStages stageError
  rcases w.downloadErr with _ | e <;> rcases w.seek with _ | e2 <;>
    rcases w.upload with e3 | f <;> rfl

theorem cloneStages_trace (o : Options) (opts : cloneOptions) (w : World) (tr : List Event) :
    (cloneStages o opts w tr).trace =
      tr ++ Event.download opts.media.DC o.PartSize (bestThreads opts.media.Size o.Threads) ::
        ((writeAll ⟨w.fileWriteAt⟩ w.downloadWrites []).2 ++
          (match w.downloadErr with
           | some _ => []
           | none => Event.seek 0 0 ::
              (match w.seek with
               | some _ => []
               | none =>
                  Event.upload opts.media.Name opts.media.Size o.PartSize
                    (bestThreads opts.media.Size o.Threads) ::
                    (chunkAll ⟨0⟩ w.uploadStates []).2.2))) := by
  unfold cloneStages
  simp only []
  rw [writeAll_trace]
  rcases w.downloadErr with _ | e
  · rcases w.seek with _ | e2
    · simp only []
      rw [chunkAll_trace]
      rcases w.upload with e3 | f <;> simp
    · simp
  · simp

theorem multierrErrors_append (l r : Option GoError) :
    multierrErrors (multierrAppend l r) = multierrErrors l ++ multierrErrors r := by
  rcases l with _ | l <;> rcases r with _ | r <;> simp [multierrAppend, multierrErrors]

theorem multierrErrors_appendInto (into : Option GoError) (err : Option Err) :
    multierrErrors (multierrAppendInto into err) = multierrErrors into ++ err.toList := by
  rcases err with _ | e
  · simp [multierrAppendInto]
  · simp only [multierrAppendInto, multierrErrors_append]
    simp [multierrErrors]

/-! ## Dry run -/

/-- C7: for every media descriptor with size `S`, `cloneMedia` with `dryRun = true`
makes exactly one call to the progress sink, with delta `2*S` (the `int64` product
`Size * 2`, the integer `2*S` whenever that is an `int64`), returns the empty
placeholder handle with a nil error, and performs no other step: the trace holds that
one sink call and nothing else, so no staging file is created and no download, seek,
upload, close or remove is attempted. -/
theorem cloneMedia_dryRun (o : Options) (opts : cloneOptions) (w : World) :
    (cloneMedia o opts true w).file = some (.inputFile 0 0 "" "") ∧
    (cloneMedia o opts true w).rerr = none ∧
    (cloneMedia o opts true w).trace =
      [Event.progressAdd (wrapInt64 (opts.media.Size * 2))] ∧
    (inInt64 (2 * opts.media.Size) →
      (cloneMedia o opts true w).trace = [Event.progressAdd (2 * opts.media.Size)] ∧
      sinkAdds (cloneMedia o opts true w).trace = [2 * opts.media.Size]) := by
  refine ⟨rfl, rfl, rfl, ?_⟩
  intro h
  have hw : wrapInt64 (opts.media.Size * 2) = 2 * opts.media.Size := by
    unfold inInt64 at h
    unfold wrapInt64
    omega
  simp [cloneMedia, hw, sinkAdds]

theorem cloneMedia_dryRun_witness :
    sinkAdds (cloneMedia ⟨4, 524288⟩ ⟨0, ⟨1500, "a.bin", 2⟩⟩ true worldCloseFails).trace
      = [2 * 1500] :=
  ((cloneMedia_dryRun ⟨4, 524288⟩ ⟨0, ⟨1500, "a.bin", 2⟩⟩ worldCloseFails).2.2.2
    (by decide)).2

/-! ## Handle and error -/

theorem cloneStages_file (o : Options) (opts : cloneOptions) (w : World) (tr : List Event) :
    (cloneStages o opts w tr).file ≠ none ↔ stageError w = none := by
  unfold cloneStages stageError
  rcases w.downloadErr with _ | e <;> rcases w.seek with _ | e2 <;>
    rcases w.upload with e3 | f <;> simp

/-- The runs in which `cloneMedia` returns a handle together with an error are the
runs in which every stage succeeded and closing or removing the staging file failed. -/
theorem cloneMedia_file_and_rerr (o : Options) (opts : cloneOptions) (dryRun : Bool)
    (w : World) :
    ((cloneMedia o opts dryRun w).file ≠ none ∧ (cloneMedia o opts dryRun w).rerr ≠ none) ↔
      (dryRun = false ∧ w.createTemp = none ∧ stageError w = none ∧
        (w.close ≠ none ∨ w.remove ≠ none)) := by
  cases dryRun
  · rcases hc : w.createTemp with _ | e
    · have hf := cloneStages_file o opts w [Event.createTemp]
      have hr := cloneStages_rerr o opts w [Event.createTemp]
      simp only [cloneMedia, hc, deferred, Bool.false_eq_true, if_false, hr]
      rcases hs : stageError w with _ | se
      · rw [hs] at hf
        rcases w.close with _ | ce <;> rcases w.remove with _ | re <;>
          simp_all [multierrAppendInto, multierrAppend]
      · rw [hs] at hf
        simp_all
    · simp [cloneMedia, hc]
  · simp [cloneMedia]

/-- C3: a run the claim excludes.  Creating the staging file, the download, the seek and
the upload all succeed and `temp.Close()` fails: `cloneMedia` returns the uploaded file
handle together with the close error, a non-nil handle alongside a non-nil error. -/
theorem cloneMedia_handle_alongside_error :
    (cloneMedia ⟨4, 524288⟩ ⟨0, ⟨3, "a.bin", 2⟩⟩ false worldCloseFails).file
      = some (.inputFile 7 1 "a.bin" "") ∧
    (cloneMedia ⟨4, 524288⟩ ⟨0, ⟨3, "a.bin", 2⟩⟩ false worldCloseFails).rerr
      = some (.single (.ext "close: input/output error")) := by
  constructor <;> rfl

/-! ## Release of the staging file -/

/-- C4: on every non-dry-run path where creating the temp file succeeded, whatever the
outcome of download, seek and upload, close and remove of the staging file are each
attempted exactly once, as the last two calls (remove also when close fails), and the
returned error is the composition of the stage error, the close error and the remove
error, each present exactly when it occurred; when creating the temp file fails, or in
dry-run, neither close nor remove is attempted. -/
theorem cloneMedia_release (o : Options) (opts : cloneOptions) (w : World) :
    (w.createTemp = none →
      (cloneMedia o opts false w).trace.count Event.close = 1 ∧
      (cloneMedia o opts false w).trace.count Event.remove = 1 ∧
      (∃ pre, (cloneMedia o opts false w).trace = pre ++ [Event.close, Event.remove]) ∧
      (cloneMedia o opts false w).rerr =
        multierrAppend
          (multierrAppend (stageError w) (w.close.map GoError.single))
          (w.remove.map GoError.single) ∧
      multierrErrors (cloneMedia o opts false w).rerr =
        multierrErrors (stageError w) ++ w.close.toList ++ w.remove.toList) ∧
    (w.createTemp ≠ none →
      Event.close ∉ (cloneMedia o opts false w).trace ∧
      Event.remove ∉ (cloneMedia o opts false w).trace) ∧
    (Event.close ∉ (cloneMedia o opts true w).trace ∧
      Event.remove ∉ (cloneMedia o opts true w).trace) := by
  refine ⟨fun hc => ?_, fun hc => ?_, ?_⟩
  · have hW1 : List.count Event.close (writeAll ⟨w.fileWriteAt⟩ w.downloadWrites []).2 = 0 :=
      List.count_eq_zero.2 (fun h => (writeAll_other _ _ _ h).2.2.2.1 rfl)
    have hW2 : List.count Event.remove (writeAll ⟨w.fileWriteAt⟩ w.downloadWrites []).2 = 0 :=
      List.count_eq_zero.2 (fun h => (writeAll_other _ _ _ h).2.2.2.2.1 rfl)
    have hC1 : List.count Event.close (chunkAll ⟨0⟩ w.uploadStates []).2.2 = 0 :=
      List.count_eq_zero.2 (fun h => (chunkAll_other _ _ _ h).2.2.2.1 rfl)
    have hC2 : List.count Event.remove (chunkAll ⟨0⟩ w.uploadStates []).2.2 = 0 :=
      List.count_eq_zero.2 (fun h => (chunkAll_other _ _ _ h).2.2.2.2.1 rfl)
    have hr := cloneStages_rerr o opts w [Event.createTemp]
    have ht := cloneStages_trace o opts w [Event.createTemp]
    simp only [cloneMedia, hc, deferred, Bool.false_eq_true, if_false, hr, ht]
    refine ⟨?_, ?_, ⟨_, List.append_assoc _ [Event.close] [Event.remove]⟩, ?_, ?_⟩
    · rcases w.downloadErr with _ | e <;> rcases w.seek with _ | e2 <;>
        simp [List.count_cons, hW1, hC1]
    · rcases w.downloadErr with _ | e <;> rcases w.seek with _ | e2 <;>
        simp [List.count_cons, hW2, hC2]
    · rcases w.close with _ | ce <;> rcases w.remove with _ | re <;>
        rcases stageError w with _ | se <;> simp [multierrAppendInto, multierrAppend]
    · simp [multierrErrors_appendInto]
  · rcases h : w.createTemp with _ | e
    · exact absurd h hc
    · simp [cloneMedia, h]
  · simp [cloneMedia]

theorem cloneMedia_release_witness :
    multierrErrors (cloneMedia ⟨4, 524288⟩ ⟨0, ⟨3, "a.bin", 2⟩⟩ false worldCloseFails).rerr =
      multierrErrors (stageError worldCloseFails) ++ worldCloseFails.close.toList ++
        worldCloseFails.remove.toList :=
  ((cloneMedia_release ⟨4, 524288⟩ ⟨0, ⟨3, "a.bin", 2⟩⟩ worldCloseFails).1 rfl).2.2.2.2

/-! ## Stage sequencing -/

theorem cloneMedia_errors (o : Options) (opts : cloneOptions) (w : World)
    (hc : w.createTemp = none) :
    multierrErrors (cloneMedia o opts false w).rerr =
      multierrErrors (stageError w) ++ (w.close.toList ++ w.remove.toList) := by
  have hr := cloneStages_rerr o opts w [Event.createTemp]
  simp [cloneMedia, hc, deferred, hr, multierrErrors_appendInto]

theorem cloneMedia_trace (o : Options) (opts : cloneOptions) (w : World)
    (hc : w.createTemp = none) :
    (cloneMedia o opts false w).trace =
      Event.createTemp ::
        Event.download opts.media.DC o.PartSize (bestThreads opts.media.Size o.Threads) ::
          ((writeAll ⟨w.fileWriteAt⟩ w.downloadWrites []).2 ++
            ((match w.downloadErr with
              | some _ => []
              | none => Event.seek 0 0 ::
                  (match w.seek with
                   | some _ => []
                   | none =>
                      Event.upload opts.media.Name opts.media.Size o.PartSize
                        (bestThreads opts.media.Size o.Threads) ::
                        (chunkAll ⟨0⟩ w.uploadStates []).2.2)) ++
              [Event.close, Event.remove])) := by
  have ht := cloneStages_trace o opts w [Event.createTemp]
  simp [cloneMedia, hc, deferred, ht]

theorem cloneMedia_file_none (o : Options) (opts : cloneOptions) (w : World)
    (hs : stageError w ≠ none) : (cloneMedia o opts false w).file = none := by
  rcases hc : w.createTemp with _ | e
  · have hf := cloneStages_file o opts w [Event.createTemp]
    simp only [cloneMedia, hc, deferred, Bool.false_eq_true, if_false]
    by_contra h
    exact hs (hf.1 h)
  · simp [cloneMedia, hc]

/-- C5: stage sequencing of `cloneMedia` without dry-run.  If creating the temp file
fails the result is the error wrapped with the create-temp tag (its text in the source
is "create temp file"), the only call made is `os.CreateTemp`: the progress sink is never
called and no download, seek or upload happens.  If the download fails the returned
error starts with the error wrapped "download" and neither a seek nor an upload call
occurs.  If the seek fails the error starts with the error wrapped "seek" and no upload
call occurs.  If the upload fails the error starts with the error wrapped "upload".  In
each case no handle is returned and the only further components of the error are those
of close and remove.  An upload call occurs only when the download succeeded and the
seek succeeded, it directly follows the seek to offset 0 (from the start), and it
carries the thread count of the download call. -/
theorem cloneMedia_stage_sequencing (o : Options) (opts : cloneOptions) (w : World) :
    (∀ e, w.createTemp = some e →
      (cloneMedia o opts false w).file = none ∧
      (cloneMedia o opts false w).rerr = some (.single (.wrap e "create temp file")) ∧
      (cloneMedia o opts false w).trace = [Event.createTemp] ∧
      sinkAdds (cloneMedia o opts false w).trace = []) ∧
    (∀ e, w.createTemp = none → w.downloadErr = some e →
      (cloneMedia o opts false w).file = none ∧
      multierrErrors (cloneMedia o opts false w).rerr =
        Err.wrap e "download" :: (w.close.toList ++ w.remove.toList) ∧
      ∀ ev ∈ (cloneMedia o opts false w).trace, ev.isSeek = false ∧ ev.isUpload = false) ∧
    (∀ e, w.createTemp = none → w.downloadErr = none → w.seek = some e →
      (cloneMedia o opts false w).file = none ∧
      multierrErrors (cloneMedia o opts false w).rerr =
        Err.wrap e "seek" :: (w.close.toList ++ w.remove.toList) ∧
      ∀ ev ∈ (cloneMedia o opts false w).trace, ev.isUpload = false) ∧
    (∀ e, w.createTemp = none → w.downloadErr = none → w.seek = none →
        w.upload = .error e →
      (cloneMedia o opts false w).file = none ∧
      multierrErrors (cloneMedia o opts false w).rerr =
        Err.wrap e "upload" :: (w.close.toList ++ w.remove.toList)) ∧
    (∀ (dryRun : Bool) (name : String) (size ps t : Int),
      Event.upload name size ps t ∈ (cloneMedia o opts dryRun w).trace →
      dryRun = false ∧ w.createTemp = none ∧ w.downloadErr = none ∧ w.seek = none ∧
      ∃ mid post,
        (cloneMedia o opts dryRun w).trace =
          Event.createTemp :: Event.download opts.media.DC ps t ::
            (mid ++ Event.seek 0 0 :: Event.upload name size ps t :: post) ∧
        ∀ ev ∈ mid, ev.isDownload = false ∧ ev.isSeek = false ∧ ev.isUpload = false) := by
  refine ⟨fun e hc => ?_, fun e hc hd => ?_, fun e hc hd hs => ?_,
    fun e hc hd hs hu => ?_, fun dryRun name size ps t hmem => ?_⟩
  · simp [cloneMedia, hc, Wrap, sinkAdds]
  · have hst : stageError w = some (Wrap e "download") := by simp [stageError, hd]
    refine ⟨cloneMedia_file_none o opts w (by simp [hst]), ?_, ?_⟩
    · rw [cloneMedia_errors o opts w hc, hst]
      simp [multierrErrors, Wrap]
    · rw [cloneMedia_trace o opts w hc]
      intro ev hev
      simp only [hd, List.mem_cons, List.mem_append, List.nil_append] at hev
      rcases hev with h | h | h | h | h | h
      · simp [h, Event.isSeek, Event.isUpload]
      · simp [h, Event.isSeek, Event.isUpload]
      · exact ⟨(writeAll_other _ _ _ h).1, (writeAll_other _ _ _ h).2.1⟩
      · simp [h, Event.isSeek, Event.isUpload]
      · simp [h, Event.isSeek, Event.isUpload]
      · simp at h
  · have hst : stageError w = some (Wrap e "seek") := by simp [stageError, hd, hs]
    refine ⟨cloneMedia_file_none o opts w (by simp [hst]), ?_, ?_⟩
    · rw [cloneMedia_errors o opts w hc, hst]
      simp [multierrErrors, Wrap]
    · rw [cloneMedia_trace o opts w hc]
      intro ev hev
      simp only [hd, hs, List.mem_cons, List.mem_append, List.cons_append,
        List.nil_append] at hev
      rcases hev with h | h | h | h | h | h | h
      · simp [h, Event.isUpload]
      · simp [h, Event.isUpload]
      · exact (writeAll_other _ _ _ h).2.1
      · simp [h, Event.isUpload]
      · simp [h, Event.isUpload]
      · simp [h, Event.isUpload]
      · simp at h
  · have hst : stageError w = some (Wrap e "upload") := by simp [stageError, hd, hs, hu]
    refine ⟨cloneMedia_file_none o opts w (by simp [hst]), ?_⟩
    rw [cloneMedia_errors o opts w hc, hst]
    simp [multierrErrors, Wrap]
  · cases dryRun
    · rcases hc : w.createTemp with _ | ce
      · rw [cloneMedia_trace o opts w hc] at hmem ⊢
        rcases hd : w.downloadErr with _ | de
        · rcases hs : w.seek with _ | se
          · simp only [hd, hs, List.mem_cons, List.mem_append, List.cons_append] at hmem ⊢
            refine ⟨trivial, trivial, trivial, trivial, ?_⟩
            rcases hmem with h | h | h | h | h | h | h
            · cases h
            · cases h
            · exact absurd (writeAll_other _ _ _ h).2.1 (by simp [Event.isUpload])
            · cases h
            · cases h
              exact ⟨_, _, rfl, fun ev hev =>
                ⟨(writeAll_other _ _ _ hev).2.2.1, (writeAll_other _ _ _ hev).1,
                  (writeAll_other _ _ _ hev).2.1⟩⟩
            · exact absurd (chunkAll_other _ _ _ h).2.1 (by simp [Event.isUpload])
            · simp at h
          · simp only [hd, hs, List.mem_cons, List.mem_append, List.cons_append,
              List.nil_append] at hmem
            rcases hmem with h | h | h | h | h | h | h
            · cases h
            · cases h
            · exact absurd (writeAll_other _ _ _ h).2.1 (by simp [Event.isUpload])
            · cases h
            · cases h
            · cases h
            · simp at h
        · simp only [hd, List.mem_cons, List.mem_append, List.nil_append] at hmem
          rcases hmem with h | h | h | h | h | h
          · cases h
          · cases h
          · exact absurd (writeAll_other _ _ _ h).2.1 (by simp [Event.isUpload])
          · cases h
          · cases h
          · simp at h
      · simp [cloneMedia, hc] at hmem
    · simp [cloneMedia] at hmem

theorem cloneMedia_stage_sequencing_witness :
    (cloneMedia ⟨4, 524288⟩ ⟨0, ⟨3, "a.bin", 2⟩⟩ false worldDownloadFails).file = none ∧
    multierrErrors (cloneMedia ⟨4, 524288⟩ ⟨0, ⟨3, "a.bin", 2⟩⟩ false worldDownloadFails).rerr =
      Err.wrap (.ext "rpc: timeout") "download" ::
        (worldDownloadFails.close.toList ++ worldDownloadFails.remove.toList) ∧
    ∀ ev ∈ (cloneMedia ⟨4, 524288⟩ ⟨0, ⟨3, "a.bin", 2⟩⟩ false worldDownloadFails).trace,
      ev.isSeek = false ∧ ev.isUpload = false :=
  (cloneMedia_stage_sequencing ⟨4, 524288⟩ ⟨0, ⟨3, "a.bin", 2⟩⟩ worldDownloadFails).2.1
    (.ext "rpc: timeout") rfl rfl

/-! ## Push-phase delta conversion -/

theorem sinkAdds_append (a b : List Event) : sinkAdds (a ++ b) = sinkAdds a ++ sinkAdds b := by
  induction a with
  | nil => rfl
  | cons ev rest ih => cases ev <;> simp [sinkAdds, ih]

theorem wrapInt64_of_inInt64 (x : Int) (h : inInt64 x) : wrapInt64 x = x := by
  unfold inInt64 at h
  unfold wrapInt64
  omega

theorem chunkAll_errors (u : uploaded) (cs : List Int) (tr : List Event) :
    (chunkAll u cs tr).1 = List.replicate cs.length none := by
  induction cs generalizing u tr with
  | nil => rfl
  | cons c rest ih => simp [chunkAll, uploaded.Chunk, ih, List.replicate_succ]

theorem chunkAll_prev (u : uploaded) (cs : List Int) (tr : List Event) :
    (chunkAll u cs tr).2.1.prev = cs.getLastD u.prev := by
  induction cs generalizing u tr with
  | nil => rfl
  | cons c rest ih =>
    simp only [chunkAll, uploaded.Chunk]
    rw [ih]
    cases rest <;> simp [List.getLastD]

theorem chunkAll_sinkAdds (u : uploaded) (cs : List Int) :
    sinkAdds (chunkAll u cs []).2.2 = (deltasFrom u.prev cs).map wrapInt64 := by
  induction cs generalizing u with
  | nil => rfl
  | cons c rest ih =>
    simp only [chunkAll, uploaded.Chunk]
    rw [chunkAll_trace, sinkAdds_append, ih]
    simp [sinkAdds, deltasFrom]

theorem deltasFrom_sum (p : Int) (cs : List Int) :
    (deltasFrom p cs).sum = cs.getLastD p - p := by
  induction cs generalizing p with
  | nil => simp [deltasFrom]
  | cons c rest ih =>
    simp only [deltasFrom, List.sum_cons, ih]
    cases rest <;> simp [List.getLastD]

theorem wrapInt64_sum_map (ds : List Int) :
    wrapInt64 (ds.map wrapInt64).sum = wrapInt64 ds.sum := by
  induction ds with
  | nil => rfl
  | cons d rest ih =>
    simp only [List.map_cons, List.sum_cons]
    unfold wrapInt64 at ih ⊢
    omega

theorem deltasFrom_exact (p : Int) (cs : List Int) (hp : 0 ≤ p ∧ inInt64 p)
    (h : ∀ c ∈ cs, 0 ≤ c ∧ inInt64 c) :
    (deltasFrom p cs).map wrapInt64 = deltasFrom p cs := by
  induction cs generalizing p with
  | nil => rfl
  | cons c rest ih =>
    have hc := h c (List.mem_cons_self _ _)
    simp only [deltasFrom, List.map_cons]
    rw [ih c hc (fun x hx => h x (List.mem_cons_of_mem _ hx))]
    congr 1
    apply wrapInt64_of_inInt64
    unfold inInt64 at hp hc ⊢
    omega

theorem deltasFrom_nonneg (p : Int) (cs : List Int) (h : List.Pairwise (· ≤ ·) (p :: cs)) :
    ∀ d ∈ deltasFrom p cs, 0 ≤ d := by
  induction cs generalizing p with
  | nil => simp [deltasFrom]
  | cons c rest ih =>
    intro d hd
    rw [List.pairwise_cons] at h
    simp only [deltasFrom, List.mem_cons] at hd
    rcases hd with hd | hd
    · have := h.1 c (List.mem_cons_self _ _)
      omega
    · exact ih c h.2 d hd

/-- C6: push-phase delta conversion, `prev` starting at 0 and the callbacks delivered
one after another.  Every call of `Chunk` returns a nil error, adds exactly one delta to
the sink, the `int64` difference of the new cumulative value and `prev`, and leaves
`prev` at the new value.  For every sequence `c1..cn` of cumulative values the deltas
reported are the differences `ci - c(i-1)` (with `c0 = 0`) taken in `int64`, `prev` ends
at `cn`, and the deltas sum to `cn` in `int64`.  When the values are non-negative
`int64` values the deltas are the integer differences and their integer sum is `cn`;
when the sequence is moreover non-decreasing no delta is negative.  A repeated value
contributes the delta 0.  For `[100, 100, 250, 600]` the deltas are `100, 0, 150, 350`,
summing to 600. -/
theorem chunk_delta_conversion :
    (∀ (u : uploaded) (c : Int) (tr : List Event),
      (u.Chunk c tr).1 = none ∧ (u.Chunk c tr).2.1.prev = c ∧
      (u.Chunk c tr).2.2 = tr ++ [Event.progressAdd (wrapInt64 (c - u.prev))] ∧
      (inInt64 (c - u.prev) →
        sinkAdds (u.Chunk c tr).2.2 = sinkAdds tr ++ [c - u.prev]) ∧
      (c = u.prev → sinkAdds (u.Chunk c tr).2.2 = sinkAdds tr ++ [0])) ∧
    (∀ cs : List Int,
      (chunkAll ⟨0⟩ cs []).1 = List.replicate cs.length none ∧
      (chunkAll ⟨0⟩ cs []).2.1.prev = cs.getLastD 0 ∧
      sinkAdds (chunkAll ⟨0⟩ cs []).2.2 = (deltasFrom 0 cs).map wrapInt64 ∧
      (inInt64 (cs.getLastD 0) →
        wrapInt64 (sinkAdds (chunkAll ⟨0⟩ cs []).2.2).sum = cs.getLastD 0) ∧
      ((∀ c ∈ cs, 0 ≤ c ∧ inInt64 c) →
        sinkAdds (chunkAll ⟨0⟩ cs []).2.2 = deltasFrom 0 cs ∧
        (sinkAdds (chunkAll ⟨0⟩ cs []).2.2).sum = cs.getLastD 0 ∧
        (List.Pairwise (· ≤ ·) cs → ∀ d ∈ sinkAdds (chunkAll ⟨0⟩ cs []).2.2, 0 ≤ d))) ∧
    sinkAdds (chunkAll ⟨0⟩ [100, 100, 250, 600] []).2.2 = [100, 0, 150, 350] ∧
    (sinkAdds (chunkAll ⟨0⟩ [100, 100, 250, 600] []).2.2).sum = 600 := by
  refine ⟨fun u c tr => ⟨rfl, rfl, rfl, fun h => ?_, fun h => ?_⟩, fun cs => ?_, ?_, ?_⟩
  · simp [uploaded.Chunk, sinkAdds_append, sinkAdds, wrapInt64_of_inInt64 _ h]
  · simp [uploaded.Chunk, sinkAdds_append, sinkAdds, h, wrapInt64]
  · refine ⟨chunkAll_errors _ _ _, chunkAll_prev _ _ _, chunkAll_sinkAdds _ _, ?_, ?_⟩
    · intro h
      rw [chunkAll_sinkAdds, wrapInt64_sum_map, deltasFrom_sum]
      simpa using wrapInt64_of_inInt64 _ h
    · intro h
      have hex : sinkAdds (chunkAll ⟨0⟩ cs []).2.2 = deltasFrom 0 cs := by
        rw [chunkAll_sinkAdds]
        exact deltasFrom_exact 0 cs ⟨le_refl _, by decide⟩ h
      refine ⟨hex, ?_, ?_⟩
      · rw [hex, deltasFrom_sum]
        simp
      · intro hs
        rw [hex]
        exact deltasFrom_nonneg 0 cs (List.pairwise_cons.2 ⟨fun c hc => (h c hc).1, hs⟩)
  · rw [chunkAll_sinkAdds]
    simp [deltasFrom, wrapInt64]
  · rw [chunkAll_sinkAdds]
    simp [deltasFrom, wrapInt64]

theorem chunk_delta_conversion_witness :
    sinkAdds (chunkAll ⟨0⟩ [5, 5, 9] []).2.2 = deltasFrom 0 [5, 5, 9] ∧
    (sinkAdds (chunkAll ⟨0⟩ [5, 5, 9] []).2.2).sum = [5, 5, 9].getLastD 0 ∧
    ∀ d ∈ sinkAdds (chunkAll ⟨0⟩ [5, 5, 9] []).2.2, 0 ≤ d :=
  have h := (chunk_delta_conversion.2.1 [5, 5, 9]).2.2.2.2 (by decide)
  ⟨h.1, h.2.1, h.2.2 (by decide)⟩

/-! ## Fetch-phase progress -/

theorem contiguous_sum (start : Int) (chunks : List (Int × Int)) (stop : Int)
    (h : contiguous start chunks stop) : (chunks.map Prod.snd).sum = stop - start := by
  induction chunks generalizing start with
  | nil =>
    simp only [contiguous] at h
    simp [h]
  | cons x rest ih =>
    obtain ⟨off, n⟩ := x
    simp only [contiguous] at h
    simp only [List.map_cons, List.sum_cons, ih _ h.2]
    omega

theorem tiles_sum (chunks : List (Int × Int)) (size : Int) (h : tiles chunks size) :
    (chunks.map Prod.snd).sum = size := by
  obtain ⟨ordered, hperm, hcont⟩ := h
  rw [← (hperm.map Prod.snd).sum_eq, contiguous_sum 0 ordered size hcont]
  simp

theorem writeAll_sinkAdds (wa : writeAt) (ws : List (List UInt8 × Int))
    (h : ∀ x ∈ ws, (wa.f x.1 x.2).2 = none) :
    sinkAdds (writeAll wa ws []).2 = ws.map (fun x => (wa.f x.1 x.2).1) := by
  induction ws with
  | nil => rfl
  | cons x rest ih =>
    obtain ⟨p, off⟩ := x
    have hx := h (p, off) (List.mem_cons_self _ _)
    simp only [writeAll]
    rw [writeAll_trace, sinkAdds_append, ih (fun y hy => h y (List.mem_cons_of_mem _ hy))]
    rcases hf : wa.f p off with ⟨n, _ | e⟩
    · simp [writeAt.WriteAt, hf, sinkAdds]
    · simp [hf] at hx

theorem writeAll_results (wa : writeAt) (ws : List (List UInt8 × Int)) (tr : List Event) :
    (writeAll wa ws tr).1 = (writeAll wa ws []).1 := by
  induction ws generalizing tr with
  | nil => rfl
  | cons x rest ih =>
    obtain ⟨p, off⟩ := x
    simp only [writeAll]
    rw [ih (wa.WriteAt p off tr).2, ih (wa.WriteAt p off []).2]
    rcases hf : wa.f p off with ⟨n, _ | e⟩ <;> simp [writeAt.WriteAt, hf]

/-- C8: fetch-phase progress.  For every buffer `p` and offset `off`: if the underlying
`WriteAt` returns `(n, nil)` the wrapper returns `(n, nil)` and adds exactly `n`, the
count actually written, to the progress sink, once; if the underlying `WriteAt` returns
an error the wrapper returns count 0 with that same error and makes no sink call.  In
both cases the underlying writer is called once, with `p` and `off`.  Hence over any
sequence of successful writes the deltas added are the written lengths, their total is
the sum of the written lengths, and it is the media size when the written chunks exactly
tile the file. -/
theorem writeAt_progress (wa : writeAt) :
    (∀ (p : List UInt8) (off n : Int) (tr : List Event), wa.f p off = (n, none) →
      (wa.WriteAt p off tr).1 = (n, none) ∧
      (wa.WriteAt p off tr).2 =
        tr ++ [Event.fileWriteAt p.length off, Event.progressAdd n] ∧
      sinkAdds (wa.WriteAt p off tr).2 = sinkAdds tr ++ [n]) ∧
    (∀ (p : List UInt8) (off n : Int) (e : Err) (tr : List Event),
      wa.f p off = (n, some e) →
      (wa.WriteAt p off tr).1 = (0, some e) ∧
      (wa.WriteAt p off tr).2 = tr ++ [Event.fileWriteAt p.length off] ∧
      sinkAdds (wa.WriteAt p off tr).2 = sinkAdds tr) ∧
    (∀ ws : List (List UInt8 × Int), (∀ x ∈ ws, (wa.f x.1 x.2).2 = none) →
      (writeAll wa ws []).1 = ws.map (fun x => ((wa.f x.1 x.2).1, none)) ∧
      sinkAdds (writeAll wa ws []).2 = ws.map (fun x => (wa.f x.1 x.2).1) ∧
      (sinkAdds (writeAll wa ws []).2).sum = (ws.map (fun x => (wa.f x.1 x.2).1)).sum ∧
      ∀ size : Int, tiles (ws.map (fun x => (x.2, (wa.f x.1 x.2).1))) size →
        (sinkAdds (writeAll wa ws []).2).sum = size) := by
  refine ⟨fun p off n tr hf => ?_, fun p off n e tr hf => ?_, fun ws h => ?_⟩
  · simp [writeAt.WriteAt, hf, sinkAdds_append, sinkAdds]
  · simp [writeAt.WriteAt, hf, sinkAdds_append, sinkAdds]
  · have hs := writeAll_sinkAdds wa ws h
    refine ⟨?_, hs, by rw [hs], fun size ht => ?_⟩
    · clear hs
      induction ws with
      | nil => rfl
      | cons x rest ih =>
        obtain ⟨p, off⟩ := x
        have hx := h (p, off) (List.mem_cons_self _ _)
        simp only [writeAll, List.map_cons]
        rw [writeAll_results, ih (fun y hy => h y (List.mem_cons_of_mem _ hy))]
        rcases hf : wa.f p off with ⟨n, _ | e⟩
        · simp [writeAt.WriteAt, hf]
        · simp [hf] at hx
    · rw [hs]
      have := tiles_sum _ size ht
      simpa [List.map_map, Function.comp] using this

theorem writeAt_progress_witness :
    (sinkAdds (writeAll ⟨fun p _ => (p.length, none)⟩
      [([7, 8], 3), ([4, 5, 6], 0)] []).2).sum = 5 :=
  ((writeAt_progress ⟨fun p _ => (p.length, none)⟩).2.2
      [([7, 8], 3), ([4, 5, 6], 0)] (by simp)).2.2.2 5
    ⟨[(0, 3), (3, 2)], List.Perm.swap (3, 2) (0, 3) [], by simp [contiguous]⟩

end Forwarder
